import Mathlib

/-
Verification of the ownership-resolution scripts of the community repository
(hack/generate-owners-report.py, hack/guess-subproject-owners.py,
hack/verify-subproject-owners.py, do_things_with_sigs_yaml.py).

The Python code is shallowly embedded: dicts become association lists with
update-or-append insertion, Python sets become `Finset String`, `None`-able
values become `Option`, exceptions (KeyError) become `Except`, and the
mutable record objects shared between the input and the result of
`prune_dupe_reviewers` become an explicit heap (`List RawOwners`) indexed by
`Nat` references.  String manipulation (`str.split('/')`, `str.replace`,
string ordering) is implemented over `String.data` character lists so that
every definition evaluates by kernel reduction.
-/

namespace CommunityOwners

/-! ## Character-list string utilities (Python `str.split`, `str.replace`, `<`) -/

/-- Embedding of Python `s.replace("/OWNERS", "")`: delete every
(non-overlapping, left-to-right) occurrence of the substring `/OWNERS`. -/
def stripSlashOwnersChars : List Char → List Char
  | '/' :: 'O' :: 'W' :: 'N' :: 'E' :: 'R' :: 'S' :: rest => stripSlashOwnersChars rest
  | c :: cs => c :: stripSlashOwnersChars cs
  | [] => []

/-- `owners_path.replace("/OWNERS","")` as used on trie keys and queries. -/
def stripOwnersSuffix (s : String) : String := ⟨stripSlashOwnersChars s.data⟩

/-- Embedding of Python `s.split('/')` (keeps empty segments, `'' -> ['']`). -/
def splitOnSlashAux : List Char → List Char → List String
  | [], acc => [⟨acc.reverse⟩]
  | c :: cs, acc =>
    if c = '/' then (⟨acc.reverse⟩ : String) :: splitOnSlashAux cs []
    else splitOnSlashAux cs (c :: acc)

/-- Path into segments, the way `pygtrie.StringTrie(separator='/')` and
`uri.split('/')` see it. -/
def segsOf (s : String) : List String := splitOnSlashAux s.data []

/-- Python string `<` (lexicographic on code points). -/
def lexLtChars : List Char → List Char → Bool
  | [], [] => false
  | [], _ :: _ => true
  | _ :: _, [] => false
  | a :: as, b :: bs =>
    if a.toNat < b.toNat then true
    else if b.toNat < a.toNat then false
    else lexLtChars as bs

/-- Python `a < b` on strings. -/
def strLt (a b : String) : Bool := lexLtChars a.data b.data

/-! ## Association lists as Python dicts

Python dict assignment `d[k] = v` updates the existing key in place or
appends a fresh key at the end (insertion order is preserved). -/

/-- Python dict assignment `m[k] = v`. -/
def dinsert (k : String) (v : α) : List (String × α) → List (String × α)
  | [] => [(k, v)]
  | (k', v') :: m => if k' == k then (k, v) :: m else (k', v') :: dinsert k v m

theorem lookup_dinsert_self (k : String) (v : α) (m : List (String × α)) :
    (dinsert k v m).lookup k = some v := by
  induction m with
  | nil => simp [dinsert, List.lookup]
  | cons p m ih =>
    obtain ⟨k', v'⟩ := p
    by_cases h : k' = k
    · subst h
      simp [dinsert, List.lookup]
    · have hb : (k' == k) = false := beq_eq_false_iff_ne.mpr h
      have hb2 : (k == k') = false := beq_eq_false_iff_ne.mpr (Ne.symm h)
      simp [dinsert, hb, List.lookup, hb2, ih]

theorem lookup_dinsert_ne (k k' : String) (v : α) (m : List (String × α))
    (h : k' ≠ k) : (dinsert k v m).lookup k' = m.lookup k' := by
  induction m with
  | nil =>
    have hb : (k' == k) = false := beq_eq_false_iff_ne.mpr h
    simp [dinsert, List.lookup, hb]
  | cons p m ih =>
    obtain ⟨k₀, v₀⟩ := p
    by_cases h0 : k₀ = k
    · subst h0
      have hb : (k' == k₀) = false := beq_eq_false_iff_ne.mpr h
      simp [dinsert, List.lookup, hb]
    · have hb0 : (k₀ == k) = false := beq_eq_false_iff_ne.mpr h0
      by_cases h1 : k' = k₀
      · subst h1
        simp [dinsert, hb0, List.lookup]
      · have hb1 : (k' == k₀) = false := beq_eq_false_iff_ne.mpr h1
        simp [dinsert, hb0, List.lookup, hb1, ih]

/-! ## Ownership records

A record is the parsed content of one OWNERS file.  Every field mirrors a
Python dict key that may be absent (`none`) or present; `present` is the
marker written by the fetch-and-cache layer.  Other keys of the Python dict
(`expanded`, `options`, ...) are not read by any embedded operation. -/

structure RawOwners where
  approvers : Option (List String)
  reviewers : Option (List String)
  labels : Option (List String)
  present : Option Bool
deriving DecidableEq

/-! ## Alias Expander (`expand_aliases`, generate-owners-report.py:65-81)

`entries:[a,b,c], aliases:{a:[d,e,f],b:[e,g]} -> {d,e,f,g,c}` — the Python
builds a `set()` and returns `list(...)` of it in unspecified order, so the
embedding returns the `Finset` itself. -/

/-- One loop iteration of `expand_aliases`: alias keys are replaced by their
member list (a `None` member list counts as empty), non-key entries are kept
verbatim, and a `None` entry is skipped. -/
def expandStep (al : List (String × Option (List String)))
    (expanded : Finset String) (x : Option String) : Finset String :=
  match x with
  | none => expanded
  | some s =>
    match al.lookup s with
    | some ax => expanded ∪ (ax.getD []).toFinset
    | none => insert s expanded

/-- `expand_aliases(entries, aliases)`: `entries == None` and
`aliases == None` are normalised to empty before the loop. -/
def expand_aliases (entries : Option (List (Option String)))
    (aliases : Option (List (String × Option (List String)))) : Finset String :=
  (entries.getD []).foldl (expandStep (aliases.getD [])) ∅

/-- The identifiers a single entry contributes to the expanded set. -/
def aliasContrib (al : List (String × Option (List String)))
    (x : Option String) : Finset String :=
  match x with
  | none => ∅
  | some s =>
    match al.lookup s with
    | some ax => (ax.getD []).toFinset
    | none => {s}

theorem expandStep_eq_union (al : List (String × Option (List String)))
    (acc : Finset String) (x : Option String) :
    expandStep al acc x = acc ∪ aliasContrib al x := by
  match x with
  | none => simp [expandStep, aliasContrib]
  | some s =>
    simp only [expandStep, aliasContrib]
    match al.lookup s with
    | some ax => rfl
    | none => rw [Finset.insert_eq, Finset.union_comm]

theorem mem_foldl_expandStep (al : List (String × Option (List String)))
    (es : List (Option String)) (acc : Finset String) (y : String) :
    y ∈ es.foldl (expandStep al) acc ↔
      y ∈ acc ∨ ∃ x ∈ es, y ∈ aliasContrib al x := by
  induction es generalizing acc with
  | nil => simp
  | cons x es ih =>
    rw [List.foldl_cons, ih, expandStep_eq_union]
    simp only [Finset.mem_union, List.mem_cons]
    constructor
    · rintro (⟨h | h⟩ | ⟨z, hz, hy⟩)
      · exact Or.inl h
      · exact Or.inr ⟨x, Or.inl rfl, h⟩
      · exact Or.inr ⟨z, Or.inr hz, hy⟩
    · rintro (h | ⟨z, rfl | hz, hy⟩)
      · exact Or.inl (Or.inl h)
      · exact Or.inl (Or.inr hy)
      · exact Or.inr ⟨z, hz, hy⟩

theorem mem_aliasContrib (al : List (String × Option (List String)))
    (x : Option String) (y : String) :
    y ∈ aliasContrib al x ↔
      ∃ e, x = some e ∧
        ((∃ m, al.lookup e = some (some m) ∧ y ∈ m) ∨
         (al.lookup e = none ∧ y = e)) := by
  match x with
  | none => simp [aliasContrib]
  | some s =>
    simp only [aliasContrib, Option.some.injEq]
    cases hl : al.lookup s with
    | none =>
      simp only [Finset.mem_singleton]
      constructor
      · rintro rfl; exact ⟨y, rfl, Or.inr ⟨hl, rfl⟩⟩
      · rintro ⟨e, rfl, ⟨m, hm, _⟩ | ⟨_, rfl⟩⟩
        · rw [hl] at hm; cases hm
        · rfl
    | some ax =>
      cases ax with
      | none =>
        simp only [Option.getD_none, List.toFinset_nil, Finset.not_mem_empty,
          false_iff]
        rintro ⟨e, rfl, ⟨m, hm, _⟩ | ⟨hn, _⟩⟩
        · rw [hl] at hm
          cases hm
        · rw [hl] at hn; cases hn
      | some l =>
        simp only [Option.getD_some, List.mem_toFinset]
        constructor
        · intro hy; exact ⟨s, rfl, Or.inl ⟨l, hl, hy⟩⟩
        · rintro ⟨e, rfl, ⟨m, hm, hy⟩ | ⟨hn, _⟩⟩
          · rw [hl] at hm
            cases hm
            exact hy
          · rw [hl] at hn; cases hn

/-- C4.  For every entry list and alias table, alias expansion replaces each
entry that is an alias key by that alias's member set (a null alias value is
the empty set and contributes zero identifiers, without failing), keeps every
non-key non-null entry verbatim, skips null entries, and the result is a set,
so no identifier appears twice. -/
theorem expand_aliases_mem_spec (entries : Option (List (Option String)))
    (aliases : Option (List (String × Option (List String)))) :
    ∀ y, y ∈ expand_aliases entries aliases ↔
      ∃ e, some e ∈ entries.getD [] ∧
        ((∃ m, (aliases.getD []).lookup e = some (some m) ∧ y ∈ m) ∨
         ((aliases.getD []).lookup e = none ∧ y = e)) := by
  intro y
  rw [expand_aliases, mem_foldl_expandStep]
  simp only [Finset.not_mem_empty, false_or]
  constructor
  · rintro ⟨x, hx, hy⟩
    rw [mem_aliasContrib] at hy
    obtain ⟨e, rfl, he⟩ := hy
    exact ⟨e, hx, he⟩
  · rintro ⟨e, he, hcase⟩
    refine ⟨some e, he, ?_⟩
    rw [mem_aliasContrib]
    exact ⟨e, rfl, hcase⟩

/-- C3.  Alias expansion is idempotent: once no element of the expanded set is
a key of the alias table, feeding the result (in any list order) back through
`expand_aliases` reproduces the same set. -/
theorem expand_aliases_idempotent (entries : Option (List (Option String)))
    (aliases : Option (List (String × Option (List String))))
    (L : List String)
    (hL : L.toFinset = expand_aliases entries aliases)
    (h : ∀ x ∈ expand_aliases entries aliases,
      (aliases.getD []).lookup x = none) :
    expand_aliases (some (L.map some)) aliases = expand_aliases entries aliases := by
  ext y
  rw [expand_aliases, mem_foldl_expandStep]
  simp only [Option.getD_some, Finset.not_mem_empty, false_or]
  constructor
  · rintro ⟨x, hx, hy⟩
    rw [List.mem_map] at hx
    obtain ⟨e, heL, rfl⟩ := hx
    have heS : e ∈ expand_aliases entries aliases := by
      rw [← hL]; exact List.mem_toFinset.mpr heL
    have hnone := h e heS
    rw [mem_aliasContrib] at hy
    obtain ⟨e', he', hcase⟩ := hy
    cases he'
    rcases hcase with ⟨m, hm, _⟩ | ⟨_, rfl⟩
    · rw [hnone] at hm; cases hm
    · exact heS
  · intro hy
    have hyL : y ∈ L := by
      rw [← List.mem_toFinset, hL]; exact hy
    refine ⟨some y, List.mem_map_of_mem some hyL, ?_⟩
    rw [mem_aliasContrib]
    exact ⟨y, rfl, Or.inr ⟨h y hy, rfl⟩⟩

/-- Witness for C3 at a concrete input: `entries = [a, c]`,
`aliases = {a: [d, e]}` expands to `{d, e, c}`, none of which is an alias
key, and re-expanding that set is a no-op. -/
theorem expand_aliases_idempotent_witness :
    expand_aliases (some ((["d", "e", "c"].map some)))
        (some [("a", some ["d", "e"])]) =
      expand_aliases (some [some "a", some "c"]) (some [("a", some ["d", "e"])]) :=
  expand_aliases_idempotent (some [some "a", some "c"])
    (some [("a", some ["d", "e"])]) ["d", "e", "c"] (by decide) (by decide)

/-! ## Duplicate-Role Pruner (`prune_dupe_reviewers`, generate-owners-report.py:214-221)

The Python function does `pruned_owners = all_owners.copy()` — a SHALLOW dict
copy — and then mutates the record objects reachable from both the copy and
the original.  The embedding makes the sharing explicit: the record table
maps each OWNERS path to a `Nat` reference into a heap of records, and the
function threads that heap.  `owners['approvers']` on a dict without the key
raises `KeyError`, embedded as `Except.error`. -/

/-- Inner double loop of `prune_dupe_reviewers`: for each approver `a`, if
`a` is in the reviewer list, `list.remove(a)` deletes its first occurrence. -/
def prune_reviewers (approvers reviewers : List String) : List String :=
  approvers.foldl (fun rs a => if a ∈ rs then rs.erase a else rs) reviewers

/-- `prune_dupe_reviewers` on a single record.  `owners['approvers']` raises
when the key is absent; `owners['reviewers']` is only read once the approver
loop runs its first iteration. -/
def prune_record (o : RawOwners) : Except String RawOwners :=
  match o.approvers with
  | none => Except.error "KeyError: approvers"
  | some as =>
    match as, o.reviewers with
    | [], _ => Except.ok o
    | _ :: _, none => Except.error "KeyError: reviewers"
    | a :: as', some rs =>
      Except.ok ⟨o.approvers, some (prune_reviewers (a :: as') rs), o.labels, o.present⟩

/-- One iteration of the `for path, owners in pruned_owners['owners'].items()`
loop: mutate the record the table entry points at. -/
def pruneHeapStep (h : List RawOwners) (pr : String × Nat) : Except String (List RawOwners) :=
  match h[pr.2]? with
  | none => Except.error "dangling record reference"
  | some o =>
    match prune_record o with
    | Except.error e => Except.error e
    | Except.ok o' => Except.ok (h.set pr.2 o')

/-- `prune_dupe_reviewers(all_owners)`: the returned table is the same
object (`all_owners.copy()` copies only the outer dict), and the records it
references live in the single threaded heap. -/
def prune_dupe_reviewers (table : List (String × Nat)) (heap : List RawOwners) :
    Except String ((List (String × Nat)) × List RawOwners) :=
  match table.foldlM pruneHeapStep heap with
  | Except.error e => Except.error e
  | Except.ok h => Except.ok (table, h)

/-- Both role keys are present on the record (always true after the loader's
alias expansion, which assigns both). -/
def KeysRec (o : RawOwners) : Prop := o.approvers.isSome ∧ o.reviewers.isSome

/-- The reviewer list carries no duplicate entry. -/
def NodupRev (o : RawOwners) : Prop := (o.reviewers.getD []).Nodup

/-- No identifier is both an approver and a reviewer of the record. -/
def DisjRec (o : RawOwners) : Prop :=
  ∀ x ∈ o.approvers.getD [], x ∉ o.reviewers.getD []

theorem prune_reviewers_spec (as : List String) :
    ∀ rs : List String, rs.Nodup →
      (prune_reviewers as rs).Nodup ∧ prune_reviewers as rs ⊆ rs ∧
        ∀ a ∈ as, a ∉ prune_reviewers as rs := by
  induction as with
  | nil =>
    intro rs h
    refine ⟨h, fun x hx => hx, by simp⟩
  | cons a as ih =>
    intro rs h
    have hstep : prune_reviewers (a :: as) rs =
        prune_reviewers as (if a ∈ rs then rs.erase a else rs) := by
      simp [prune_reviewers]
    by_cases ha : a ∈ rs
    · rw [hstep, if_pos ha]
      obtain ⟨h1, h2, h3⟩ := ih (rs.erase a) (h.erase a)
      refine ⟨h1, h2.trans (List.erase_subset a rs), ?_⟩
      intro b hb
      rcases List.mem_cons.mp hb with rfl | hb2
      · intro hmem
        exact h.not_mem_erase (h2 hmem)
      · exact h3 b hb2
    · rw [hstep, if_neg ha]
      obtain ⟨h1, h2, h3⟩ := ih rs h
      refine ⟨h1, h2, ?_⟩
      intro b hb
      rcases List.mem_cons.mp hb with rfl | hb2
      · intro hmem
        exact ha (h2 hmem)
      · exact h3 b hb2

theorem prune_record_ok_keys (o : RawOwners) (h : KeysRec o) :
    ∃ o', prune_record o = Except.ok o' ∧ o'.approvers = o.approvers ∧
      KeysRec o' ∧ o'.labels = o.labels ∧ o'.present = o.present := by
  obtain ⟨ha, hr⟩ := h
  obtain ⟨as, has⟩ := Option.isSome_iff_exists.mp ha
  obtain ⟨rs, hrs⟩ := Option.isSome_iff_exists.mp hr
  cases as with
  | nil =>
    exact ⟨o, by simp [prune_record, has], rfl, ⟨ha, hr⟩, rfl, rfl⟩
  | cons a as' =>
    refine ⟨⟨o.approvers, some (prune_reviewers (a :: as') rs), o.labels, o.present⟩,
      by simp [prune_record, has, hrs], rfl, ⟨by simp [has], by simp⟩, rfl, rfl⟩

theorem prune_record_ok_good (o : RawOwners) (h : KeysRec o) (hn : NodupRev o) :
    ∃ o', prune_record o = Except.ok o' ∧ o'.approvers = o.approvers ∧
      KeysRec o' ∧ NodupRev o' ∧ DisjRec o' := by
  obtain ⟨ha, hr⟩ := h
  obtain ⟨as, has⟩ := Option.isSome_iff_exists.mp ha
  obtain ⟨rs, hrs⟩ := Option.isSome_iff_exists.mp hr
  have hnd : rs.Nodup := by
    have := hn
    rw [NodupRev, hrs] at this
    exact this
  cases as with
  | nil =>
    refine ⟨o, by simp [prune_record, has], rfl, ⟨ha, hr⟩, hn, ?_⟩
    intro x hx
    rw [has] at hx
    cases hx
  | cons a as' =>
    obtain ⟨h1, _h2, h3⟩ := prune_reviewers_spec (a :: as') rs hnd
    refine ⟨⟨o.approvers, some (prune_reviewers (a :: as') rs), o.labels, o.present⟩,
      by simp [prune_record, has, hrs], rfl, ⟨by simp [has], by simp⟩, ?_, ?_⟩
    · rw [NodupRev]
      simpa using h1
    · intro x hx
      simp only [has, Option.getD_some] at hx
      simpa using h3 x hx

theorem foldlM_prune_ok (l : List (String × Nat)) :
    ∀ heap : List RawOwners,
      (∀ pr ∈ l, pr.2 < heap.length) →
      (∀ o ∈ heap, KeysRec o) →
      ∃ h, l.foldlM pruneHeapStep heap = Except.ok h ∧
        h.length = heap.length ∧ ∀ o ∈ h, KeysRec o := by
  induction l with
  | nil =>
    intro heap _ hg
    exact ⟨heap, rfl, rfl, hg⟩
  | cons pr l ih =>
    intro heap hb hg
    have hlt : pr.2 < heap.length := hb pr (List.mem_cons_self pr l)
    have ho : heap[pr.2]? = some heap[pr.2] := List.getElem?_eq_getElem hlt
    have hgo : KeysRec heap[pr.2] := hg _ (List.getElem?_mem ho)
    obtain ⟨o', hpr, _hap, hko', _, _⟩ := prune_record_ok_keys _ hgo
    have hstep : pruneHeapStep heap pr = Except.ok (heap.set pr.2 o') := by
      simp [pruneHeapStep, ho, hpr]
    obtain ⟨h, hfold, hlen, hgood⟩ := ih (heap.set pr.2 o')
      (by
        intro pr' hpr'
        rw [List.length_set]
        exact hb pr' (List.mem_cons_of_mem pr hpr'))
      (by
        intro o2 ho2
        rcases List.mem_or_eq_of_mem_set ho2 with h2 | rfl
        · exact hg o2 h2
        · exact hko')
    refine ⟨h, ?_, by rw [hlen, List.length_set], hgood⟩
    rw [List.foldlM_cons, hstep]
    simpa using hfold

theorem foldlM_prune_good (l : List (String × Nat)) :
    ∀ heap : List RawOwners,
      (∀ pr ∈ l, pr.2 < heap.length) →
      (∀ o ∈ heap, KeysRec o ∧ NodupRev o) →
      ∃ h, l.foldlM pruneHeapStep heap = Except.ok h ∧
        h.length = heap.length ∧
        (∀ o ∈ h, KeysRec o ∧ NodupRev o) ∧
        (∀ i : Nat, (∀ o, heap[i]? = some o → DisjRec o) →
          ∀ o, h[i]? = some o → DisjRec o) ∧
        (∀ pr ∈ l, ∀ o, h[pr.2]? = some o → DisjRec o) := by
  induction l with
  | nil =>
    intro heap _ hg
    exact ⟨heap, rfl, rfl, hg, fun _ hd => hd, by simp⟩
  | cons pr l ih =>
    intro heap hb hg
    have hlt : pr.2 < heap.length := hb pr (List.mem_cons_self pr l)
    have ho : heap[pr.2]? = some heap[pr.2] := List.getElem?_eq_getElem hlt
    have hgo := hg _ (List.getElem?_mem ho)
    obtain ⟨o', hpr, _hap, hko', hno', hdo'⟩ :=
      prune_record_ok_good _ hgo.1 hgo.2
    have hstep : pruneHeapStep heap pr = Except.ok (heap.set pr.2 o') := by
      simp [pruneHeapStep, ho, hpr]
    obtain ⟨h, hfold, hlen, hgood, hpres, hl⟩ := ih (heap.set pr.2 o')
      (by
        intro pr' hpr'
        rw [List.length_set]
        exact hb pr' (List.mem_cons_of_mem pr hpr'))
      (by
        intro o2 ho2
        rcases List.mem_or_eq_of_mem_set ho2 with h2 | rfl
        · exact hg o2 h2
        · exact ⟨hko', hno'⟩)
    have hset_disj : ∀ o2, (heap.set pr.2 o')[pr.2]? = some o2 → DisjRec o2 := by
      intro o2 ho2
      rw [List.getElem?_set_self (by rw [List.length_set] at *; exact hlt)] at ho2
      cases ho2
      exact hdo'
    refine ⟨h, ?_, by rw [hlen, List.length_set], hgood, ?_, ?_⟩
    · rw [List.foldlM_cons, hstep]
      simpa using hfold
    · intro i hd
      apply hpres
      intro o2 ho2
      by_cases hi : i = pr.2
      · subst hi
        exact hset_disj o2 ho2
      · rw [List.getElem?_set_ne (fun he => hi he.symm)] at ho2
        exact hd o2 ho2
    · intro pr' hpr' o2 ho2
      rcases List.mem_cons.mp hpr' with rfl | hmem
      · exact hpres pr'.2 hset_disj o2 ho2
      · exact hl pr' hmem o2 ho2

/-- C5 (amended).  After `prune_dupe_reviewers` runs once over a record table
whose records all carry both role keys and duplicate-free reviewer lists,
every record referenced by the table satisfies
`approvers ∩ reviewers = ∅`. -/
theorem prune_disjoint_after_run (table : List (String × Nat)) (heap : List RawOwners)
    (hrid : ∀ pr ∈ table, pr.2 < heap.length)
    (hkeys : ∀ o ∈ heap, o.approvers.isSome ∧ o.reviewers.isSome)
    (hnodup : ∀ o ∈ heap, (o.reviewers.getD []).Nodup) :
    ∃ h, prune_dupe_reviewers table heap = Except.ok (table, h) ∧
      ∀ pr ∈ table, ∀ o, h[pr.2]? = some o →
        ∀ x ∈ o.approvers.getD [], x ∉ o.reviewers.getD [] := by
  obtain ⟨h, hfold, _, _, _, hdisj⟩ := foldlM_prune_good table heap hrid
    (fun o ho => ⟨hkeys o ho, hnodup o ho⟩)
  exact ⟨h, by rw [prune_dupe_reviewers, hfold], hdisj⟩

/-- Witness for C5 at Scenario 1: `approvers=[x], reviewers=[x,y]` prunes to
disjoint role sets on the record both table entries reach. -/
theorem prune_disjoint_after_run_witness :
    ∃ h, prune_dupe_reviewers [("a/b/OWNERS", 0)]
        [⟨some ["x"], some ["x", "y"], none, some true⟩] = Except.ok ([("a/b/OWNERS", 0)], h) ∧
      ∀ pr ∈ [("a/b/OWNERS", 0)], ∀ o, h[pr.2]? = some o →
        ∀ x ∈ o.approvers.getD [], x ∉ o.reviewers.getD [] :=
  prune_disjoint_after_run [("a/b/OWNERS", 0)]
    [⟨some ["x"], some ["x", "y"], none, some true⟩]
    (by decide) (by decide) (by decide)

/-- C5 counterexample.  On a record table whose reviewer list repeats an
identifier (`approvers=[x], reviewers=[x,x]`), one run of the pruner —
`list.remove` deletes only the first occurrence — leaves `x` in both roles,
so the unconditional claim fails. -/
theorem prune_duplicate_reviewer_cex :
    prune_dupe_reviewers [("a/b/OWNERS", 0)]
        [⟨some ["x"], some ["x", "x"], none, none⟩] =
      Except.ok ([("a/b/OWNERS", 0)], [⟨some ["x"], some ["x"], none, none⟩]) ∧
    ¬ DisjRec ⟨some ["x"], some ["x"], none, none⟩ := by
  constructor
  · rfl
  · intro hd
    exact absurd (by decide : ("x" : String) ∈ ["x"])
      (hd "x" (by decide))

/-- C8.  `all_owners.copy()` is a shallow copy, so pruning mutates the record
objects the input table still references: at the failing input the heap after
the call holds `reviewers=[y]` where the caller's table saw `[x,y]` before,
i.e. the function is not pure. -/
theorem prune_mutates_shared_records :
    prune_dupe_reviewers [("a/b/OWNERS", 0)]
        [⟨some ["x"], some ["x", "y"], none, none⟩] =
      Except.ok ([("a/b/OWNERS", 0)], [⟨some ["x"], some ["y"], none, none⟩]) ∧
    ([⟨some ["x"], some ["y"], none, none⟩] : List RawOwners) ≠
      [⟨some ["x"], some ["x", "y"], none, none⟩] := ⟨rfl, by decide⟩

/-- C10.  The pruner is total on tables whose records all define both
`approvers` and `reviewers`, and a record missing one of the keys (here
`reviewers`, with a non-empty approver list) makes it fail with a lookup
error instead of treating the missing attribute as empty. -/
theorem prune_totality_and_missing_key :
    (∀ (table : List (String × Nat)) (heap : List RawOwners),
       (∀ pr ∈ table, pr.2 < heap.length) →
       (∀ o ∈ heap, o.approvers.isSome ∧ o.reviewers.isSome) →
       ∃ r, prune_dupe_reviewers table heap = Except.ok r) ∧
    prune_dupe_reviewers [("k/r/OWNERS", 0)] [⟨some ["u"], none, none, none⟩] =
      Except.error "KeyError: reviewers" := by
  constructor
  · intro table heap hb hk
    obtain ⟨h, hfold, _, _⟩ := foldlM_prune_ok table heap hb hk
    exact ⟨(table, h), by rw [prune_dupe_reviewers, hfold]⟩
  · rfl

/-- Witness for C10 at a concrete two-key table. -/
theorem prune_totality_witness :
    ∃ r, prune_dupe_reviewers [("k/r/OWNERS", 0)]
        [⟨some ["u"], some ["u", "v"], none, none⟩] = Except.ok r :=
  prune_totality_and_missing_key.1 [("k/r/OWNERS", 0)]
    [⟨some ["u"], some ["u", "v"], none, none⟩] (by decide) (by decide)

/-! ## Prefix Ownership Index (`pygtrie.StringTrie(separator='/')`)

`generate-owners-report.py` stores `owners_trie[prefix] = subproject_name`
and queries `owners_trie.longest_prefix(path)`.  The trie is embedded as an
association list with overwrite-on-insert; `longest_prefix` returns the
deepest (most path segments) stored key that is a segment-wise prefix of the
query, together with its value, or nothing when no stored key matches. -/

/-- Segment-wise ancestor-or-self test: `a/b` covers `a/b/c` but not `a/bc`. -/
def segPrefixOf (k q : String) : Bool := (segsOf k).isPrefixOf (segsOf q)

/-- `trie[k] = v`: overwrite the existing key or add a fresh one. -/
def trieInsert (t : List (String × String)) (k v : String) : List (String × String) :=
  if t.any (fun p => p.1 == k) then
    t.map (fun p => if p.1 == k then (k, v) else p)
  else t ++ [(k, v)]

/-- Deepest-match scan implementing `trie.longest_prefix(q)`. -/
def lpAux (q : String) (best : Option (String × String)) :
    List (String × String) → Option (String × String)
  | [] => best
  | (k, v) :: t =>
    if segPrefixOf k q then
      match best with
      | none => lpAux q (some (k, v)) t
      | some b =>
        if (segsOf b.1).length < (segsOf k).length then lpAux q (some (k, v)) t
        else lpAux q best t
    else lpAux q best t

/-- `trie.longest_prefix(q)`: `some (matched_prefix, value)` or `none`. -/
def longestPrefixMatch (t : List (String × String)) (q : String) :
    Option (String × String) :=
  lpAux q none t

theorem lpAux_spec (q : String) (l : List (String × String)) :
    ∀ best : Option (String × String),
      (∀ b, best = some b → segPrefixOf b.1 q = true) →
      (∀ r, lpAux q best l = some r →
          segPrefixOf r.1 q = true ∧ (r ∈ l ∨ best = some r) ∧
          (∀ p ∈ l, segPrefixOf p.1 q = true →
            (segsOf p.1).length ≤ (segsOf r.1).length) ∧
          (∀ b, best = some b →
            (segsOf b.1).length ≤ (segsOf r.1).length)) ∧
      (lpAux q best l = none →
          best = none ∧ ∀ p ∈ l, segPrefixOf p.1 q = false) := by
  induction l with
  | nil =>
    intro best hb
    constructor
    · intro r hr
      simp only [lpAux] at hr
      refine ⟨hb r hr, Or.inr hr, by simp, ?_⟩
      intro b hbb
      rw [hbb] at hr
      cases hr
      exact Nat.le_refl _
    · intro hr
      simp only [lpAux] at hr
      exact ⟨hr, by simp⟩
  | cons p t ih =>
    intro best hb
    obtain ⟨k, v⟩ := p
    by_cases hseg : segPrefixOf k q = true
    · have hunf : ∀ b', lpAux q b' ((k, v) :: t) =
          (match b' with
           | none => lpAux q (some (k, v)) t
           | some b =>
             if (segsOf b.1).length < (segsOf k).length then lpAux q (some (k, v)) t
             else lpAux q b' t) := by
        intro b'
        simp [lpAux, hseg]
      cases best with
      | none =>
        have ihs := ih (some (k, v)) (by
          intro b hbb
          cases hbb
          exact hseg)
        constructor
        · intro r hr
          rw [hunf] at hr
          obtain ⟨h1, h2, h3, h4⟩ := ihs.1 r hr
          refine ⟨h1, ?_, ?_, by simp⟩
          · rcases h2 with h2 | h2
            · exact Or.inl (List.mem_cons_of_mem _ h2)
            · cases h2
              exact Or.inl (List.mem_cons_self _ _)
          · intro p' hp' hps
            rcases List.mem_cons.mp hp' with rfl | hp2
            · exact h4 (k, v) rfl
            · exact h3 p' hp2 hps
        · intro hr
          rw [hunf] at hr
          obtain ⟨habs, _⟩ := ihs.2 hr
          cases habs
      | some b0 =>
        by_cases hlt : (segsOf b0.1).length < (segsOf k).length
        · have ihs := ih (some (k, v)) (by
            intro b hbb
            cases hbb
            exact hseg)
          constructor
          · intro r hr
            rw [hunf] at hr
            simp only [hlt, if_true] at hr
            obtain ⟨h1, h2, h3, h4⟩ := ihs.1 r hr
            have hkr : (segsOf k).length ≤ (segsOf r.1).length := h4 (k, v) rfl
            refine ⟨h1, ?_, ?_, ?_⟩
            · rcases h2 with h2 | h2
              · exact Or.inl (List.mem_cons_of_mem _ h2)
              · cases h2
                exact Or.inl (List.mem_cons_self _ _)
            · intro p' hp' hps
              rcases List.mem_cons.mp hp' with rfl | hp2
              · exact hkr
              · exact h3 p' hp2 hps
            · intro b hbb
              cases hbb
              exact Nat.le_trans (Nat.le_of_lt hlt) hkr
          · intro hr
            rw [hunf] at hr
            simp only [hlt, if_true] at hr
            obtain ⟨habs, _⟩ := ihs.2 hr
            cases habs
        · have ihs := ih (some b0) hb
          constructor
          · intro r hr
            rw [hunf] at hr
            simp only [hlt, if_false] at hr
            obtain ⟨h1, h2, h3, h4⟩ := ihs.1 r hr
            have hbr : (segsOf b0.1).length ≤ (segsOf r.1).length := h4 b0 rfl
            refine ⟨h1, ?_, ?_, ?_⟩
            · rcases h2 with h2 | h2
              · exact Or.inl (List.mem_cons_of_mem _ h2)
              · exact Or.inr h2
            · intro p' hp' hps
              rcases List.mem_cons.mp hp' with rfl | hp2
              · exact Nat.le_trans (Nat.le_of_not_lt hlt) hbr
              · exact h3 p' hp2 hps
            · intro b hbb
              cases hbb
              exact hbr
          · intro hr
            rw [hunf] at hr
            simp only [hlt, if_false] at hr
            obtain ⟨habs, _⟩ := ihs.2 hr
            cases habs
    · have hsf : segPrefixOf k q = false := Bool.eq_false_iff.mpr hseg
      have hunf : lpAux q best ((k, v) :: t) = lpAux q best t := by
        simp [lpAux, hsf]
      have ihs := ih best hb
      constructor
      · intro r hr
        rw [hunf] at hr
        obtain ⟨h1, h2, h3, h4⟩ := ihs.1 r hr
        refine ⟨h1, ?_, ?_, h4⟩
        · rcases h2 with h2 | h2
          · exact Or.inl (List.mem_cons_of_mem _ h2)
          · exact Or.inr h2
        · intro p' hp' hps
          rcases List.mem_cons.mp hp' with rfl | hp2
          · rw [hsf] at hps
            cases hps
          · exact h3 p' hp2 hps
      · intro hr
        rw [hunf] at hr
        obtain ⟨hn, hall⟩ := ihs.2 hr
        refine ⟨hn, ?_⟩
        intro p' hp'
        rcases List.mem_cons.mp hp' with rfl | hp2
        · exact hsf
        · exact hall p' hp2

/-- C2.  On every non-empty prefix table, `longest_prefix` either returns no
match, or returns a stored entry whose key is a segment-wise
ancestor-or-self of the query and is deepest among all stored keys matching
the query; when it returns no match, no stored key matches at all. -/
theorem longestPrefixMatch_sound (t : List (String × String)) (q : String)
    (hne : t ≠ []) :
    (∀ k v, longestPrefixMatch t q = some (k, v) →
       segPrefixOf k q = true ∧ (k, v) ∈ t ∧
       ∀ k' v', (k', v') ∈ t → segPrefixOf k' q = true →
         (segsOf k').length ≤ (segsOf k).length) ∧
    (longestPrefixMatch t q = none →
       ∀ k' v', (k', v') ∈ t → segPrefixOf k' q = false) := by
  have hs := lpAux_spec q t none (by intro b hbb; cases hbb)
  constructor
  · intro k v hkv
    obtain ⟨h1, h2, h3, _⟩ := hs.1 (k, v) hkv
    rcases h2 with h2 | h2
    · exact ⟨h1, h2, fun k' v' hmem hpre => h3 (k', v') hmem hpre⟩
    · cases h2
  · intro hn k' v' hmem
    exact (hs.2 hn).2 (k', v') hmem

/-- Witness for C2: with stored prefixes `a` and `a/b`, the query `a/bc`
matches only `a` (`a/b` is not a segment-wise ancestor of `a/bc`), and the
lookup returns the deepest matching ancestor `a`. -/
theorem longestPrefixMatch_sound_witness :
    (∀ k v, longestPrefixMatch [("a", "s0"), ("a/b", "s1")] "a/bc" = some (k, v) →
       segPrefixOf k "a/bc" = true ∧ (k, v) ∈ [("a", "s0"), ("a/b", "s1")] ∧
       ∀ k' v', (k', v') ∈ [("a", "s0"), ("a/b", "s1")] →
         segPrefixOf k' "a/bc" = true →
         (segsOf k').length ≤ (segsOf k).length) ∧
    (longestPrefixMatch [("a", "s0"), ("a/b", "s1")] "a/bc" = none →
       ∀ k' v', (k', v') ∈ [("a", "s0"), ("a/b", "s1")] →
         segPrefixOf k' "a/bc" = false) :=
  longestPrefixMatch_sound [("a", "s0"), ("a/b", "s1")] "a/bc" (by decide)

/-! ## Group/Subproject Resolver (generate-owners-report.py:223-257, 282-359)

`load_all_groups_and_subprojects` keys every sig/committee subproject by name
(later same-named subprojects overwrite earlier ones) and finally installs
the synthetic catch-all `unknown` under `committee-steering`; `main` then
assigns every loaded OWNERS path to a subproject: declared paths directly,
the rest by longest-prefix match over the trie, defaulting to `unknown`.
The source converts each declared owners URI to its monorepo `org/repo/path`
form (`monorepo_path_from_raw_gh_uri`) before this point; the embedding
takes the owner entries already in that form, as every claim supplies them. -/

structure GroupSubproject where
  name : String
  owners : List String
deriving DecidableEq

structure K8sGroup where
  dir : String
  subprojects : Option (List GroupSubproject)
deriving DecidableEq

structure Subproject where
  name : String
  parent : String
  full_name : String
  owners : List String
deriving DecidableEq

/-- `subprojects_from_k8s_group` (:107-119): attach `parent` (the group dir)
and `full_name` to each subproject of the group. -/
def subprojects_from_k8s_group (g : K8sGroup) : List Subproject :=
  (g.subprojects.getD []).map
    (fun sp => ⟨sp.name, g.dir, g.dir ++ "/" ++ sp.name, sp.owners⟩)

/-- The placeholder subproject created at :248-254. -/
def unknownSubproject : Subproject :=
  ⟨"unknown", "committee-steering", "committee-steering/unknown", []⟩

def insertGroupSubprojects (m : List (String × Subproject)) :
    List Subproject → List (String × Subproject)
  | [] => m
  | sp :: sps => insertGroupSubprojects (dinsert sp.name sp m) sps

def insertAllGroups (m : List (String × Subproject)) :
    List K8sGroup → List (String × Subproject)
  | [] => m
  | g :: gs => insertAllGroups (insertGroupSubprojects m (subprojects_from_k8s_group g)) gs

/-- `all_subprojects` of `load_all_groups_and_subprojects` (:223-257): only
sigs and committees may own code, and the `unknown` placeholder is installed
last. -/
def load_all_subprojects (sigs committees : List K8sGroup) :
    List (String × Subproject) :=
  dinsert "unknown" unknownSubproject (insertAllGroups [] (sigs ++ committees))

structure Assignment where
  name : String
  reason : Option String
deriving DecidableEq

/-- The justification string attached to guessed assignments
(`f"longest prefix match: {path_prefix} implies ownership by {full_name}"`;
a missing prefix renders as `None`, as the Python f-string does). -/
def mkReason (pre : Option String) (full : String) : String :=
  "longest prefix match: " ++ (match pre with | some s => s | none => "None") ++
    " implies ownership by " ++ full

/-- The subproject name `main` picks for an undeclared path: the trie value
at the longest matching prefix, else `unknown` (:324-326). -/
def lpName (t : List (String × String)) (p : String) : String :=
  match longestPrefixMatch t (stripOwnersSuffix p) with
  | some kv => kv.2
  | none => "unknown"

/-- First pass (:303-307): record each declared path of one subproject in
`owners_to_subprojects` and insert its stripped prefix into the trie. -/
def insertDeclaredPaths (n : String) :
    List String → List (String × Assignment) × List (String × String) →
      List (String × Assignment) × List (String × String)
  | [], mt => mt
  | p :: ps, mt =>
    insertDeclaredPaths n ps
      (dinsert p ⟨n, none⟩ mt.1, trieInsert mt.2 (stripOwnersSuffix p) n)

def firstPass :
    List Subproject → List (String × Assignment) × List (String × String) →
      List (String × Assignment) × List (String × String)
  | [], mt => mt
  | sp :: sps, mt => firstPass sps (insertDeclaredPaths sp.name sp.owners mt)

/-- Second pass (:321-328): assign every loaded path not directly declared,
by longest prefix or to `unknown`; `all_subprojects[subproject]` raises a
`KeyError` when the name is absent. -/
def assignLoaded (allsps : List (String × Subproject)) (t : List (String × String)) :
    List String → List (String × Assignment) →
      Except String (List (String × Assignment))
  | [], m => Except.ok m
  | p :: ps, m =>
    if (m.lookup p).isSome then assignLoaded allsps t ps m
    else
      match allsps.lookup (lpName t p) with
      | none => Except.error ("KeyError: " ++ lpName t p)
      | some sp =>
        assignLoaded allsps t ps
          (dinsert p
            ⟨lpName t p,
             some (mkReason ((longestPrefixMatch t (stripOwnersSuffix p)).map Prod.fst)
               sp.full_name)⟩ m)

/-- The resolution of `main` (:300-328) over the loaded OWNERS paths. -/
def resolve_owners (allsps : List (String × Subproject)) (loaded : List String) :
    Except String (List (String × Assignment)) :=
  assignLoaded allsps (firstPass (allsps.map (fun kv => kv.2)) ([], [])).2 loaded
    (firstPass (allsps.map (fun kv => kv.2)) ([], [])).1

/-! ### Association-list bookkeeping lemmas -/

theorem mem_dinsert (x : String × α) (k : String) (v : α) (m : List (String × α))
    (h : x ∈ dinsert k v m) : x = (k, v) ∨ x ∈ m := by
  induction m with
  | nil =>
    simp only [dinsert] at h
    rcases List.mem_singleton.mp h with rfl
    exact Or.inl rfl
  | cons p m ih =>
    obtain ⟨k0, v0⟩ := p
    by_cases hk : k0 = k
    · subst hk
      simp only [dinsert, beq_self_eq_true, if_true] at h
      rcases List.mem_cons.mp h with rfl | h2
      · exact Or.inl rfl
      · exact Or.inr (List.mem_cons_of_mem _ h2)
    · have hb : (k0 == k) = false := beq_eq_false_iff_ne.mpr hk
      simp only [dinsert, hb, Bool.false_eq_true, if_false] at h
      rcases List.mem_cons.mp h with rfl | h2
      · exact Or.inr (List.mem_cons_self _ _)
      · rcases ih h2 with h3 | h3
        · exact Or.inl h3
        · exact Or.inr (List.mem_cons_of_mem _ h3)

theorem mem_keys_dinsert (x k : String) (v : α) (m : List (String × α)) :
    x ∈ (dinsert k v m).map Prod.fst ↔ x = k ∨ x ∈ m.map Prod.fst := by
  induction m with
  | nil => simp [dinsert]
  | cons p m ih =>
    obtain ⟨k0, v0⟩ := p
    by_cases hk : k0 = k
    · subst hk
      simp only [dinsert, beq_self_eq_true, if_true, List.map_cons, List.mem_cons]
      constructor
      · rintro (rfl | h)
        · exact Or.inl rfl
        · exact Or.inr (Or.inr h)
      · rintro (rfl | rfl | h)
        · exact Or.inl rfl
        · exact Or.inl rfl
        · exact Or.inr h
    · have hb : (k0 == k) = false := beq_eq_false_iff_ne.mpr hk
      simp only [dinsert, hb, Bool.false_eq_true, if_false, List.map_cons,
        List.mem_cons, ih]
      constructor
      · rintro (rfl | h | h)
        · exact Or.inr (Or.inl rfl)
        · exact Or.inl h
        · exact Or.inr (Or.inr h)
      · rintro (h | rfl | h)
        · exact Or.inr (Or.inl h)
        · exact Or.inl rfl
        · exact Or.inr (Or.inr h)

theorem nodup_keys_dinsert (k : String) (v : α) (m : List (String × α))
    (h : (m.map Prod.fst).Nodup) : ((dinsert k v m).map Prod.fst).Nodup := by
  induction m with
  | nil => simp [dinsert]
  | cons p m ih =>
    obtain ⟨k0, v0⟩ := p
    simp only [List.map_cons, List.nodup_cons] at h
    by_cases hk : k0 = k
    · subst hk
      simp only [dinsert, beq_self_eq_true, if_true, List.map_cons, List.nodup_cons]
      exact h
    · have hb : (k0 == k) = false := beq_eq_false_iff_ne.mpr hk
      simp only [dinsert, hb, Bool.false_eq_true, if_false, List.map_cons,
        List.nodup_cons]
      refine ⟨?_, ih h.2⟩
      intro hmem
      rcases (mem_keys_dinsert k0 k v m).mp hmem with rfl | h2
      · exact hk rfl
      · exact h.1 h2

theorem lookup_isSome_of_mem (k : String) (v : α) (m : List (String × α))
    (h : (k, v) ∈ m) : (m.lookup k).isSome := by
  induction m with
  | nil => cases h
  | cons p m ih =>
    obtain ⟨k0, v0⟩ := p
    rcases List.mem_cons.mp h with heq | h2
    · cases heq
      simp [List.lookup]
    · by_cases hk : k = k0
      · subst hk
        simp [List.lookup]
      · have hb : (k == k0) = false := beq_eq_false_iff_ne.mpr hk
        simp only [List.lookup, hb]
        exact ih h2

theorem trieInsert_snd_mem (t : List (String × String)) (k v : String)
    (x : String × String) (h : x ∈ trieInsert t k v) :
    x.2 ∈ t.map Prod.snd ∨ x.2 = v := by
  rw [trieInsert] at h
  by_cases hc : t.any (fun p => p.1 == k)
  · rw [if_pos hc] at h
    obtain ⟨y, hy, hxy⟩ := List.mem_map.mp h
    by_cases hk : y.1 == k
    · rw [if_pos hk] at hxy
      subst hxy
      exact Or.inr rfl
    · rw [if_neg hk] at hxy
      subst hxy
      exact Or.inl (List.mem_map_of_mem Prod.snd hy)
  · rw [if_neg hc] at h
    rcases List.mem_append.mp h with h2 | h2
    · exact Or.inl (List.mem_map_of_mem Prod.snd h2)
    · rcases List.mem_singleton.mp h2 with rfl
      exact Or.inr rfl

/-! ### First-pass lemmas -/

theorem ip_preserve (n : String) (ps : List String) :
    ∀ mt (p : String), p ∉ ps →
      (insertDeclaredPaths n ps mt).1.lookup p = mt.1.lookup p := by
  induction ps with
  | nil => intro mt p _; rfl
  | cons q ps ih =>
    intro mt p hp
    have hpq : p ≠ q := fun h => hp (h ▸ List.mem_cons_self q ps)
    have hps : p ∉ ps := fun h => hp (List.mem_cons_of_mem q h)
    simp only [insertDeclaredPaths]
    rw [ih _ p hps]
    exact lookup_dinsert_ne q p ⟨n, none⟩ mt.1 hpq

theorem ip_set (n : String) (ps : List String) :
    ∀ mt (p : String), p ∈ ps →
      (insertDeclaredPaths n ps mt).1.lookup p = some ⟨n, none⟩ := by
  induction ps with
  | nil => intro mt p hp; cases hp
  | cons q ps ih =>
    intro mt p hp
    by_cases hin : p ∈ ps
    · simp only [insertDeclaredPaths]
      exact ih _ p hin
    · have hpq : p = q := by
        rcases List.mem_cons.mp hp with h | h
        · exact h
        · exact absurd h hin
      subst hpq
      simp only [insertDeclaredPaths]
      rw [ip_preserve n ps _ p hin]
      exact lookup_dinsert_self p ⟨n, none⟩ mt.1

theorem ip_nodup (n : String) (ps : List String) :
    ∀ mt, (mt.1.map Prod.fst).Nodup →
      ((insertDeclaredPaths n ps mt).1.map Prod.fst).Nodup := by
  induction ps with
  | nil => intro mt h; exact h
  | cons q ps ih =>
    intro mt h
    simp only [insertDeclaredPaths]
    exact ih _ (nodup_keys_dinsert q ⟨n, none⟩ mt.1 h)

theorem ip_domain (n : String) (ps : List String) :
    ∀ mt (p : String), ((insertDeclaredPaths n ps mt).1.lookup p).isSome →
      (mt.1.lookup p).isSome ∨ p ∈ ps := by
  induction ps with
  | nil => intro mt p h; exact Or.inl h
  | cons q ps ih =>
    intro mt p h
    rcases ih _ p h with h2 | h2
    · by_cases hpq : p = q
      · exact Or.inr (hpq ▸ List.mem_cons_self q ps)
      · rw [lookup_dinsert_ne q p ⟨n, none⟩ mt.1 hpq] at h2
        exact Or.inl h2
    · exact Or.inr (List.mem_cons_of_mem q h2)

theorem ip_trie (n : String) (ps : List String) :
    ∀ mt (x : String × String), x ∈ (insertDeclaredPaths n ps mt).2 →
      x.2 ∈ mt.2.map Prod.snd ∨ x.2 = n := by
  induction ps with
  | nil => intro mt x h; exact Or.inl (List.mem_map_of_mem Prod.snd h)
  | cons q ps ih =>
    intro mt x h
    rcases ih _ x h with h2 | h2
    · obtain ⟨y, hy, hxy⟩ := List.mem_map.mp h2
      rcases trieInsert_snd_mem mt.2 (stripOwnersSuffix q) n y hy with h3 | h3
      · exact Or.inl (hxy ▸ h3)
      · exact Or.inr (hxy ▸ h3)
    · exact Or.inr h2

theorem fp_preserve (sps : List Subproject) :
    ∀ mt (p : String), (∀ sp ∈ sps, p ∉ sp.owners) →
      (firstPass sps mt).1.lookup p = mt.1.lookup p := by
  induction sps with
  | nil => intro mt p _; rfl
  | cons sp sps ih =>
    intro mt p hp
    simp only [firstPass]
    rw [ih _ p (fun sp' h => hp sp' (List.mem_cons_of_mem sp h))]
    exact ip_preserve sp.name sp.owners mt p (hp sp (List.mem_cons_self sp sps))

theorem fp_set (sps : List Subproject) :
    ∀ mt (p n : String),
      (∀ sp ∈ sps, p ∈ sp.owners → sp.name = n) →
      (∃ sp ∈ sps, p ∈ sp.owners) →
      (firstPass sps mt).1.lookup p = some ⟨n, none⟩ := by
  induction sps with
  | nil =>
    rintro mt p n _ ⟨sp, h, _⟩
    cases h
  | cons sp sps ih =>
    intro mt p n hall hex
    simp only [firstPass]
    by_cases hrest : ∃ sp' ∈ sps, p ∈ sp'.owners
    · exact ih _ p n (fun sp' h hp => hall sp' (List.mem_cons_of_mem sp h) hp) hrest
    · have hsp : p ∈ sp.owners := by
        obtain ⟨sp', hsp', hp'⟩ := hex
        rcases List.mem_cons.mp hsp' with rfl | h2
        · exact hp'
        · exact absurd ⟨sp', h2, hp'⟩ hrest
      have hnone : ∀ sp' ∈ sps, p ∉ sp'.owners := by
        intro sp' h' hp'
        exact hrest ⟨sp', h', hp'⟩
      rw [fp_preserve sps _ p hnone, ← hall sp (List.mem_cons_self sp sps) hsp]
      exact ip_set sp.name sp.owners mt p hsp

theorem fp_nodup (sps : List Subproject) :
    ∀ mt, (mt.1.map Prod.fst).Nodup →
      ((firstPass sps mt).1.map Prod.fst).Nodup := by
  induction sps with
  | nil => intro mt h; exact h
  | cons sp sps ih =>
    intro mt h
    simp only [firstPass]
    exact ih _ (ip_nodup sp.name sp.owners mt h)

theorem fp_domain (sps : List Subproject) :
    ∀ mt (p : String), ((firstPass sps mt).1.lookup p).isSome →
      (mt.1.lookup p).isSome ∨ ∃ sp ∈ sps, p ∈ sp.owners := by
  induction sps with
  | nil => intro mt p h; exact Or.inl h
  | cons sp sps ih =>
    intro mt p h
    rcases ih _ p h with h2 | ⟨sp', hsp', hp'⟩
    · rcases ip_domain sp.name sp.owners mt p h2 with h3 | h3
      · exact Or.inl h3
      · exact Or.inr ⟨sp, List.mem_cons_self sp sps, h3⟩
    · exact Or.inr ⟨sp', List.mem_cons_of_mem sp hsp', hp'⟩

theorem fp_trie (sps : List Subproject) :
    ∀ mt (x : String × String), x ∈ (firstPass sps mt).2 →
      x.2 ∈ mt.2.map Prod.snd ∨ ∃ sp ∈ sps, x.2 = sp.name := by
  induction sps with
  | nil => intro mt x h; exact Or.inl (List.mem_map_of_mem Prod.snd h)
  | cons sp sps ih =>
    intro mt x h
    rcases ih _ x h with h2 | ⟨sp', hsp', h3⟩
    · obtain ⟨y, hy, hxy⟩ := List.mem_map.mp h2
      rcases ip_trie sp.name sp.owners mt y hy with h3 | h3
      · exact Or.inl (hxy ▸ h3)
      · exact Or.inr ⟨sp, List.mem_cons_self sp sps, hxy ▸ h3⟩
    · exact Or.inr ⟨sp', List.mem_cons_of_mem sp hsp', h3⟩

/-! ### Name-keying of `all_subprojects` -/

theorem name_key_insertGroup (l : List Subproject) :
    ∀ m, (∀ kv ∈ m, Subproject.name kv.2 = kv.1) →
      ∀ kv ∈ insertGroupSubprojects m l, Subproject.name kv.2 = kv.1 := by
  induction l with
  | nil => intro m hm; exact hm
  | cons sp l ih =>
    intro m hm
    apply ih
    intro kv hkv
    rcases mem_dinsert kv sp.name sp m hkv with rfl | h2
    · rfl
    · exact hm kv h2

theorem name_key_insertAll (gs : List K8sGroup) :
    ∀ m, (∀ kv ∈ m, Subproject.name kv.2 = kv.1) →
      ∀ kv ∈ insertAllGroups m gs, Subproject.name kv.2 = kv.1 := by
  induction gs with
  | nil => intro m hm; exact hm
  | cons g gs ih =>
    intro m hm
    exact ih _ (name_key_insertGroup (subprojects_from_k8s_group g) m hm)

theorem name_key_load (sigs committees : List K8sGroup) :
    ∀ kv ∈ load_all_subprojects sigs committees, Subproject.name kv.2 = kv.1 := by
  intro kv hkv
  rcases mem_dinsert kv "unknown" unknownSubproject _ hkv with rfl | h2
  · rfl
  · exact name_key_insertAll (sigs ++ committees) [] (by intro kv h; cases h) kv h2

theorem load_lookup_unknown (sigs committees : List K8sGroup) :
    (load_all_subprojects sigs committees).lookup "unknown" = some unknownSubproject :=
  lookup_dinsert_self "unknown" unknownSubproject _

/-! ### Second-pass lemma -/

theorem al_spec (allsps : List (String × Subproject)) (t : List (String × String))
    (ht : ∀ v ∈ t.map Prod.snd, (allsps.lookup v).isSome)
    (hu : (allsps.lookup "unknown").isSome)
    (loaded : List String) :
    ∀ m : List (String × Assignment), (m.map Prod.fst).Nodup →
      ∃ m', assignLoaded allsps t loaded m = Except.ok m' ∧
        (m'.map Prod.fst).Nodup ∧
        (∀ q a, m.lookup q = some a → m'.lookup q = some a) ∧
        (∀ p ∈ loaded, (m'.lookup p).isSome) ∧
        (∀ p ∈ loaded, m.lookup p = none →
          ∃ sp, allsps.lookup (lpName t p) = some sp ∧
            m'.lookup p = some ⟨lpName t p,
              some (mkReason ((longestPrefixMatch t (stripOwnersSuffix p)).map Prod.fst)
                sp.full_name)⟩) := by
  induction loaded with
  | nil =>
    intro m hm
    exact ⟨m, rfl, hm, fun _ _ h => h, by simp, by simp⟩
  | cons p ps ih =>
    intro m hm
    by_cases hp : (m.lookup p).isSome
    · have hunf : assignLoaded allsps t (p :: ps) m = assignLoaded allsps t ps m := by
        simp [assignLoaded, hp]
      obtain ⟨m', h1, h2, h3, h4, h5⟩ := ih m hm
      refine ⟨m', by rw [hunf]; exact h1, h2, h3, ?_, ?_⟩
      · intro p' hp'
        rcases List.mem_cons.mp hp' with rfl | h6
        · obtain ⟨a, ha⟩ := Option.isSome_iff_exists.mp hp
          rw [h3 p' a ha]
          rfl
        · exact h4 p' h6
      · intro p' hp' hnone
        rcases List.mem_cons.mp hp' with rfl | h6
        · rw [hnone] at hp
          cases hp
        · exact h5 p' h6 hnone
    · have hpn : m.lookup p = none := Option.not_isSome_iff_eq_none.mp hp
      have hlp : (allsps.lookup (lpName t p)).isSome := by
        rw [lpName]
        cases hmatch : longestPrefixMatch t (stripOwnersSuffix p) with
        | none => exact hu
        | some kv =>
          have hs := (lpAux_spec (stripOwnersSuffix p) t none
            (by intro b hb; cases hb)).1 kv hmatch
          rcases hs.2.1 with hmem | habs
          · exact ht kv.2 (List.mem_map_of_mem Prod.snd hmem)
          · cases habs
      obtain ⟨sp, hsp⟩ := Option.isSome_iff_exists.mp hlp
      have hunf : assignLoaded allsps t (p :: ps) m =
          assignLoaded allsps t ps
            (dinsert p
              ⟨lpName t p,
               some (mkReason ((longestPrefixMatch t (stripOwnersSuffix p)).map Prod.fst)
                 sp.full_name)⟩ m) := by
        simp [assignLoaded, hp, hsp]
      obtain ⟨m', h1, h2, h3, h4, h5⟩ := ih
        (dinsert p
          ⟨lpName t p,
           some (mkReason ((longestPrefixMatch t (stripOwnersSuffix p)).map Prod.fst)
             sp.full_name)⟩ m)
        (nodup_keys_dinsert p _ m hm)
      refine ⟨m', by rw [hunf]; exact h1, h2, ?_, ?_, ?_⟩
      · intro q a hq
        have hqp : q ≠ p := by
          rintro rfl
          rw [hq] at hpn
          cases hpn
        apply h3
        rw [lookup_dinsert_ne p q _ m hqp]
        exact hq
      · intro p' hp'
        rcases List.mem_cons.mp hp' with rfl | h6
        · rw [h3 p' _ (lookup_dinsert_self p' _ m)]
          rfl
        · exact h4 p' h6
      · intro p' hp' hnone
        by_cases hp'p : p' = p
        · subst hp'p
          exact ⟨sp, hsp, h3 p' _ (lookup_dinsert_self p' _ m)⟩
        · rcases List.mem_cons.mp hp' with rfl | h6
          · exact absurd rfl hp'p
          · refine h5 p' h6 ?_
            rw [lookup_dinsert_ne p p' _ m hp'p]
            exact hnone

/-- C1 (amended).  When no OWNERS path is declared by two differently-named
subprojects, resolution assigns every loaded path to exactly one subproject:
declared paths to their declaring subproject, the rest to the subproject the
trie's longest-prefix match names, defaulting to the synthetic `unknown`
subproject parented under `committee-steering`; no path is assigned twice or
dropped. -/
theorem resolve_partitions_loaded_paths (sigs committees : List K8sGroup)
    (loaded : List String)
    (huniq : ∀ sp1 ∈ (load_all_subprojects sigs committees).map Prod.snd,
             ∀ sp2 ∈ (load_all_subprojects sigs committees).map Prod.snd,
             ∀ p ∈ Subproject.owners sp1, p ∈ Subproject.owners sp2 →
               Subproject.name sp1 = Subproject.name sp2) :
    ∃ m, resolve_owners (load_all_subprojects sigs committees) loaded = Except.ok m ∧
      (∀ p ∈ loaded, (m.lookup p).isSome) ∧
      (m.map Prod.fst).Nodup ∧
      (∀ sp ∈ (load_all_subprojects sigs committees).map Prod.snd,
        ∀ p ∈ Subproject.owners sp, m.lookup p = some ⟨Subproject.name sp, none⟩) ∧
      (∀ p ∈ loaded,
        (∀ sp ∈ (load_all_subprojects sigs committees).map Prod.snd,
          p ∉ Subproject.owners sp) →
        ∃ a, m.lookup p = some a ∧ Assignment.name a =
          lpName
            (firstPass ((load_all_subprojects sigs committees).map Prod.snd) ([], [])).2
            p) ∧
      (load_all_subprojects sigs committees).lookup "unknown" = some unknownSubproject := by
  have hname : ∀ kv ∈ load_all_subprojects sigs committees, Subproject.name kv.2 = kv.1 :=
    name_key_load sigs committees
  have hvals : ∀ v ∈ (firstPass ((load_all_subprojects sigs committees).map Prod.snd)
      ([], [])).2.map Prod.snd,
      ((load_all_subprojects sigs committees).lookup v).isSome := by
    intro v hv
    obtain ⟨x, hx, hxv⟩ := List.mem_map.mp hv
    rcases fp_trie ((load_all_subprojects sigs committees).map Prod.snd) ([], []) x hx with
      h2 | ⟨sp, hsp, h2⟩
    · simp at h2
    · obtain ⟨kv, hkv, hkv2⟩ := List.mem_map.mp hsp
      have hk := hname kv hkv
      rw [← hxv, h2, ← hkv2, hk]
      have hpair : (kv.1, kv.2) ∈ load_all_subprojects sigs committees := by
        simpa using hkv
      exact lookup_isSome_of_mem kv.1 kv.2 _ hpair
  have hu : ((load_all_subprojects sigs committees).lookup "unknown").isSome := by
    rw [load_lookup_unknown]
    rfl
  have hmt_nodup : ((firstPass ((load_all_subprojects sigs committees).map Prod.snd)
      ([], [])).1.map Prod.fst).Nodup :=
    fp_nodup _ ([], []) (by simp)
  obtain ⟨m, h1, h2, h3, h4, h5⟩ := al_spec (load_all_subprojects sigs committees)
    (firstPass ((load_all_subprojects sigs committees).map Prod.snd) ([], [])).2
    hvals hu loaded
    (firstPass ((load_all_subprojects sigs committees).map Prod.snd) ([], [])).1
    hmt_nodup
  refine ⟨m, h1, h4, h2, ?_, ?_, load_lookup_unknown sigs committees⟩
  · intro sp hsp p hp
    have hset : (firstPass ((load_all_subprojects sigs committees).map Prod.snd)
        ([], [])).1.lookup p = some ⟨sp.name, none⟩ :=
      fp_set _ ([], []) p sp.name
        (fun sp' h' hp' => huniq sp' h' sp hsp p hp' hp) ⟨sp, hsp, hp⟩
    exact h3 p _ hset
  · intro p hp hnodecl
    have hnone : (firstPass ((load_all_subprojects sigs committees).map Prod.snd)
        ([], [])).1.lookup p = none := by
      cases hcase : (firstPass ((load_all_subprojects sigs committees).map Prod.snd)
          ([], [])).1.lookup p with
      | none => rfl
      | some a =>
        have hsome : ((firstPass ((load_all_subprojects sigs committees).map Prod.snd)
            ([], [])).1.lookup p).isSome := by
          rw [hcase]
          rfl
        rcases fp_domain _ ([], []) p hsome with h6 | ⟨sp, hsp, h6⟩
        · simp [List.lookup] at h6
        · exact absurd h6 (hnodecl sp hsp)
    obtain ⟨sp, _hsp, hm⟩ := h5 p hp hnone
    exact ⟨_, hm, rfl⟩

/-- Witness for C1 at a concrete dataset: one sig declaring `o/r/api/OWNERS`
for subproject `core`; all three loaded paths get assigned. -/
theorem resolve_partitions_loaded_paths_witness :
    ∃ m, resolve_owners
        (load_all_subprojects [⟨"sig-w", some [⟨"core", ["o/r/api/OWNERS"]⟩]⟩] [])
        ["o/r/api/OWNERS", "o/r/api/v2/OWNERS", "z/z/OWNERS"] = Except.ok m ∧
      (∀ p ∈ ["o/r/api/OWNERS", "o/r/api/v2/OWNERS", "z/z/OWNERS"],
        (m.lookup p).isSome) := by
  obtain ⟨m, h1, h2, _⟩ := resolve_partitions_loaded_paths
    [⟨"sig-w", some [⟨"core", ["o/r/api/OWNERS"]⟩]⟩] []
    ["o/r/api/OWNERS", "o/r/api/v2/OWNERS", "z/z/OWNERS"] (by decide)
  exact ⟨m, h1, h2⟩

/-- C1 counterexample.  When two differently-named subprojects declare the
same path `a/b/OWNERS`, resolution assigns it to the later one (`sp2`): the
path is explicitly declared under `sp1`'s ownership list yet is not assigned
to `sp1`, so the unconditional claim fails. -/
theorem resolve_duplicate_declaration_cex :
    ((resolve_owners
        (load_all_subprojects
          [⟨"sig-a", some [⟨"sp1", ["a/b/OWNERS"]⟩]⟩,
           ⟨"sig-b", some [⟨"sp2", ["a/b/OWNERS"]⟩]⟩] [])
        ["a/b/OWNERS"]).toOption.bind (fun m => m.lookup "a/b/OWNERS")) =
      some ⟨"sp2", none⟩ ∧
    (⟨"sp1", "sig-a", "sig-a/sp1", ["a/b/OWNERS"]⟩ : Subproject) ∈
      (load_all_subprojects
        [⟨"sig-a", some [⟨"sp1", ["a/b/OWNERS"]⟩]⟩,
         ⟨"sig-b", some [⟨"sp2", ["a/b/OWNERS"]⟩]⟩] []).map Prod.snd ∧
    ("sp1" : String) ≠ "sp2" := ⟨rfl, by decide, by decide⟩

/-! ## Consensus Analyzer (guess-subproject-owners.py:133-148)

For each attribute class `k in ['approvers','reviewers','labels']` the
analysis computes `common[k] = set.intersection(*vs)` and
`union[k] = set.union(*vs)` over `vs = [set(owners.get(k,[])) ...]`, and for
a subproject with more than one record logs a warning when
`len(common[k]) != len(union[k]) and len(common[k]) == 0`, otherwise an
`OK` line reporting `len(common[k])`. -/

inductive Finding where
  | warnNoCommon : Finding
  | okCommon : Nat → Finding
deriving DecidableEq

inductive AttrKey where
  | approvers : AttrKey
  | reviewers : AttrKey
  | labels : AttrKey
deriving DecidableEq

/-- `owners.get(k, [])`. -/
def attrOf (o : RawOwners) : AttrKey → List String
  | AttrKey.approvers => o.approvers.getD []
  | AttrKey.reviewers => o.reviewers.getD []
  | AttrKey.labels => o.labels.getD []

/-- One attribute class of the analysis: `(common, union, finding)`;
`set.intersection(*[])` raises, hence `none` on an empty record list. -/
def consensus (recs : List RawOwners) (k : AttrKey) :
    Option (Finset String × Finset String × Option Finding) :=
  match recs with
  | [] => none
  | r :: rs =>
    let v := (attrOf r k).toFinset
    let vs := rs.map (fun o => (attrOf o k).toFinset)
    let c := vs.foldl (fun a b => a ∩ b) v
    let u := vs.foldl (fun a b => a ∪ b) v
    some (c, u,
      if 1 < recs.length then
        some (if c.card ≠ u.card ∧ c.card = 0 then Finding.warnNoCommon
              else Finding.okCommon c.card)
      else none)

theorem mem_foldl_inter (vs : List (Finset String)) :
    ∀ (v : Finset String) (x : String),
      x ∈ vs.foldl (fun a b => a ∩ b) v ↔ x ∈ v ∧ ∀ w ∈ vs, x ∈ w := by
  induction vs with
  | nil => intro v x; simp
  | cons w vs ih =>
    intro v x
    rw [List.foldl_cons, ih]
    simp only [Finset.mem_inter, List.mem_cons]
    constructor
    · rintro ⟨⟨h1, h2⟩, h3⟩
      refine ⟨h1, ?_⟩
      rintro w' (rfl | hw')
      · exact h2
      · exact h3 w' hw'
    · rintro ⟨h1, h2⟩
      exact ⟨⟨h1, h2 w (Or.inl rfl)⟩, fun w' hw' => h2 w' (Or.inr hw')⟩

theorem mem_foldl_union (vs : List (Finset String)) :
    ∀ (v : Finset String) (x : String),
      x ∈ vs.foldl (fun a b => a ∪ b) v ↔ x ∈ v ∨ ∃ w ∈ vs, x ∈ w := by
  induction vs with
  | nil => intro v x; simp
  | cons w vs ih =>
    intro v x
    rw [List.foldl_cons, ih]
    simp only [Finset.mem_union, List.mem_cons]
    constructor
    · rintro ((h | h) | ⟨w', hw', hx⟩)
      · exact Or.inl h
      · exact Or.inr ⟨w, Or.inl rfl, h⟩
      · exact Or.inr ⟨w', Or.inr hw', hx⟩
    · rintro (h | ⟨w', rfl | hw', hx⟩)
      · exact Or.inl (Or.inl h)
      · exact Or.inl (Or.inr hx)
      · exact Or.inr ⟨w', hw', hx⟩

/-- C6.  For a subproject with at least two ownership records, the analyzer
computes, per attribute class, the intersection and the union across all the
records' sets, and emits the warning-level no-consensus finding exactly when
the intersection is empty and the union is not, versus the informational
finding carrying the intersection's size whenever the intersection is
non-empty. -/
theorem consensus_analyzer_spec (recs : List RawOwners) (k : AttrKey)
    (hlen : 2 ≤ recs.length) :
    ∃ c u f, consensus recs k = some (c, u, some f) ∧
      (∀ x, x ∈ c ↔ ∀ o ∈ recs, x ∈ attrOf o k) ∧
      (∀ x, x ∈ u ↔ ∃ o ∈ recs, x ∈ attrOf o k) ∧
      (f = Finding.warnNoCommon ↔ (c = ∅ ∧ u ≠ ∅)) ∧
      (c ≠ ∅ → f = Finding.okCommon c.card) := by
  match recs with
  | [] => simp at hlen
  | r :: rs =>
    have hgt : 1 < (r :: rs).length := hlen
    refine ⟨_, _, _, by rw [consensus]; rw [if_pos hgt], ?_, ?_, ?_, ?_⟩
    · intro x
      rw [mem_foldl_inter]
      simp only [List.mem_toFinset, List.mem_cons, List.mem_map]
      constructor
      · rintro ⟨h1, h2⟩ o (rfl | ho)
        · exact h1
        · have := h2 ((attrOf o k).toFinset) ⟨o, ho, rfl⟩
          exact List.mem_toFinset.mp this
      · intro h
        refine ⟨h r (Or.inl rfl), ?_⟩
        rintro w ⟨o, ho, rfl⟩
        exact List.mem_toFinset.mpr (h o (Or.inr ho))
    · intro x
      rw [mem_foldl_union]
      simp only [List.mem_toFinset, List.mem_cons, List.mem_map]
      constructor
      · rintro (h | ⟨w, ⟨o, ho, rfl⟩, hx⟩)
        · exact ⟨r, Or.inl rfl, h⟩
        · exact ⟨o, Or.inr ho, List.mem_toFinset.mp hx⟩
      · rintro ⟨o, rfl | ho, hx⟩
        · exact Or.inl hx
        · exact Or.inr ⟨(attrOf o k).toFinset, ⟨o, ho, rfl⟩, List.mem_toFinset.mpr hx⟩
    · by_cases hcond :
        ((rs.map fun o => (attrOf o k).toFinset).foldl (fun a b => a ∩ b)
            ((attrOf r k).toFinset)).card ≠
          ((rs.map fun o => (attrOf o k).toFinset).foldl (fun a b => a ∪ b)
            ((attrOf r k).toFinset)).card ∧
        ((rs.map fun o => (attrOf o k).toFinset).foldl (fun a b => a ∩ b)
            ((attrOf r k).toFinset)).card = 0
      · rw [if_pos hcond]
        simp only [true_iff]
        obtain ⟨hne, hz⟩ := hcond
        refine ⟨Finset.card_eq_zero.mp hz, ?_⟩
        intro hu
        rw [hu] at hne
        rw [hz] at hne
        simp at hne
      · rw [if_neg hcond]
        constructor
        · intro h
          cases h
        · rintro ⟨hc, hu⟩
          exfalso
          apply hcond
          rw [hc]
          refine ⟨?_, Finset.card_empty⟩
          rw [Finset.card_empty]
          intro h
          exact hu (Finset.card_eq_zero.mp h.symm)
    · intro hc
      have hz : ((rs.map fun o => (attrOf o k).toFinset).foldl (fun a b => a ∩ b)
          ((attrOf r k).toFinset)).card ≠ 0 :=
        fun h => hc (Finset.card_eq_zero.mp h)
      rw [if_neg (fun h => hz h.2)]

/-- Witness for C6 at Scenario 3: two records with approver sets `{a, b}` and
`{b, c}` give a non-empty intersection, hence the informational finding. -/
theorem consensus_analyzer_spec_witness :
    ∃ c u f, consensus
        [⟨some ["a", "b"], none, none, some true⟩,
         ⟨some ["b", "c"], none, none, some true⟩] AttrKey.approvers =
        some (c, u, some f) ∧
      (∀ x, x ∈ c ↔ ∀ o ∈
        [(⟨some ["a", "b"], none, none, some true⟩ : RawOwners),
         ⟨some ["b", "c"], none, none, some true⟩], x ∈ attrOf o AttrKey.approvers) ∧
      (∀ x, x ∈ u ↔ ∃ o ∈
        [(⟨some ["a", "b"], none, none, some true⟩ : RawOwners),
         ⟨some ["b", "c"], none, none, some true⟩], x ∈ attrOf o AttrKey.approvers) ∧
      (f = Finding.warnNoCommon ↔ (c = ∅ ∧ u ≠ ∅)) ∧
      (c ≠ ∅ → f = Finding.okCommon c.card) :=
  consensus_analyzer_spec
    [⟨some ["a", "b"], none, none, some true⟩,
     ⟨some ["b", "c"], none, none, some true⟩] AttrKey.approvers (by decide)

/-! ## Ownership Record Loader presence marker
(guess-subproject-owners.py:48-60 and :117-130)

`get_cached_file` abstracts `requests.get` + YAML parse as an
`Option RawOwners` (`none` = failed fetch): a failure stores
`{'present': False}`; a success keeps the parsed record, adding
`present = True` only when the content carries no `present` value. -/

def get_cached_file (fetch : Option RawOwners) : RawOwners :=
  match fetch with
  | none => ⟨none, none, none, some false⟩
  | some o =>
    match o.present with
    | none => ⟨o.approvers, o.reviewers, o.labels, some true⟩
    | some _ => o

/-- The per-subproject loading loop of `process_sig_subproject`: every owners
path is fetched (or served from cache) and stored; no failure aborts it. -/
def load_subproject_paths (fetches : List (String × Option RawOwners)) :
    List (String × RawOwners) :=
  fetches.map (fun pf => (pf.1, get_cached_file pf.2))

/-- `all(owners['present'] == False for path, owners in sp['paths'].items())`
— the condition of the missing-ALL-OWNERS warning (:125-126). -/
def missing_all_flag (recs : List (String × RawOwners)) : Bool :=
  recs.all (fun pr => pr.2.present == some false)

/-- C9 (amended).  A failed fetch is stored as a `present = false` record
instead of aborting, a successful fetch whose content carries no `present`
value is stored with `present = true` (an explicit `present` in the content
is preserved), loading continues over every remaining record, and a
subproject all of whose records come from failed fetches raises the
warning flag. -/
theorem loader_present_flag_spec (fetches : List (String × Option RawOwners)) :
    (load_subproject_paths fetches).length = fetches.length ∧
    (∀ p f, (p, f) ∈ fetches → (p, get_cached_file f) ∈ load_subproject_paths fetches) ∧
    (get_cached_file none).present = some false ∧
    (∀ o, RawOwners.present o = none →
      (get_cached_file (some o)).present = some true) ∧
    ((∀ pf ∈ fetches, pf.2 = none) →
      missing_all_flag (load_subproject_paths fetches) = true) := by
  refine ⟨List.length_map fetches _, ?_, rfl, ?_, ?_⟩
  · intro p f hf
    exact List.mem_map_of_mem (fun pf => (pf.1, get_cached_file pf.2)) hf
  · intro o h
    simp [get_cached_file, h]
  · intro h
    rw [missing_all_flag, List.all_eq_true]
    intro pr hpr
    obtain ⟨pf, hpf, hpr2⟩ := List.mem_map.mp hpr
    rw [← hpr2]
    have := h pf hpf
    rw [this]
    rfl

/-- Witness for C9 on a subproject whose single fetch fails: the record is
stored, loading finishes, and the missing-ALL warning fires. -/
theorem loader_present_flag_spec_witness :
    (load_subproject_paths [("k/r/f/OWNERS", none)]).length = 1 ∧
    missing_all_flag (load_subproject_paths [("k/r/f/OWNERS", none)]) = true := by
  have h := loader_present_flag_spec [("k/r/f/OWNERS", none)]
  exact ⟨h.1, h.2.2.2.2 (by decide)⟩

/-- C9 counterexample.  A successful fetch whose content itself carries
`present: false` is NOT stored with `present = true` — the fetched value is
preserved — so the unconditional "every successfully fetched record is
stored with present = true" fails. -/
theorem get_cached_present_preserved_cex :
    (get_cached_file (some ⟨none, none, none, some false⟩)).present ≠ some true := by
  decide

/-! ## Multi-Owner Detector (do_things_with_sigs_yaml.py:32-72)

`repos_from_sig` extracts `'/'.join(uri.split('/')[3:5])` for every owners
URI of every subproject, deduplicates and returns the sorted repo list;
`print_repos_owned_by_multiple_sigs` builds the reverse map repo → owning
sig names and prints, in `sorted(..., key=len(v), reverse=True)` order
(CPython's sort is stable, so equal counts keep dict insertion order), every
repo with more than one owner. -/

structure SigDecl where
  name : String
  subprojects : Option (List GroupSubproject)
deriving DecidableEq

/-- Python `'/'.join(l)`. -/
def joinSlash : List String → String
  | [] => ""
  | [s] => s
  | s :: rest => s ++ "/" ++ joinSlash rest

/-- `'/'.join(uri.split('/')[3:5])`. -/
def repoFromUri (uri : String) : String :=
  joinSlash (((segsOf uri).drop 3).take 2)

/-- `repos[repo] = True` guarded by `if repo != ''` (dict keys dedupe). -/
def addRepo (acc : List String) (uri : String) : List String :=
  if repoFromUri uri ≠ "" ∧ repoFromUri uri ∉ acc then acc ++ [repoFromUri uri]
  else acc

/-- Stable insertion into a sorted list: `le y x` means `y` may stay in
front of the later-arriving `x`, which is exactly CPython's stable sort. -/
def insertSorted (le : α → α → Bool) (x : α) : List α → List α
  | [] => [x]
  | y :: ys => if le y x then y :: insertSorted le x ys else x :: y :: ys

/-- Stable sort by repeated insertion (elements arrive left to right). -/
def sortStable (le : α → α → Bool) (l : List α) : List α :=
  l.foldl (fun acc x => insertSorted le x acc) []

/-- Python `a <= b` on strings. -/
def strLeB (a b : String) : Bool := !(strLt b a)

/-- `repos_from_sig(sig)` (:32-44): collect, dedupe, `sorted(repos.keys())`. -/
def repos_from_sig (sig : SigDecl) : List String :=
  sortStable strLeB
    ((sig.subprojects.getD []).foldl (fun acc sp => sp.owners.foldl addRepo acc) [])

/-- The repo → owning-sig-names updates contributed by one sig (:61-67). -/
def addSigRepos (m : List (String × List String)) (s : SigDecl) :
    List (String × List String) :=
  (repos_from_sig s).foldl
    (fun m r => dinsert r ((m.lookup r).getD [] ++ [s.name]) m) m

def rmAux (m : List (String × List String)) :
    List SigDecl → List (String × List String)
  | [] => m
  | s :: ss => rmAux (addSigRepos m s) ss

/-- The full reverse map `repos` of `print_repos_owned_by_multiple_sigs`. -/
def repos_owned (sigs : List SigDecl) : List (String × List String) := rmAux [] sigs

/-- The names of the sigs owning `r`, in sig order (the value the reverse
map stores at `r`). -/
def owningNames (r : String) : List SigDecl → List String
  | [] => []
  | s :: ss =>
    if r ∈ repos_from_sig s then SigDecl.name s :: owningNames r ss
    else owningNames r ss

/-- The report lines (:69-72): stable sort descending by owner count, then
keep every repo with more than one owning sig. -/
def print_repos_owned_by_multiple_sigs (sigs : List SigDecl) :
    List (String × List String) :=
  (sortStable (fun a b => Nat.ble b.2.length a.2.length) (repos_owned sigs)).filter
    (fun pr => Nat.blt 1 pr.2.length)

/-! ### Sorting lemmas -/

theorem perm_insertSorted (le : α → α → Bool) (x : α) (l : List α) :
    List.Perm (insertSorted le x l) (x :: l) := by
  induction l with
  | nil => exact List.Perm.refl _
  | cons y ys ih =>
    rw [insertSorted]
    by_cases h : le y x
    · rw [if_pos h]
      exact (ih.cons y).trans (List.Perm.swap x y ys)
    · rw [if_neg h]

theorem perm_sortStable (le : α → α → Bool) (l : List α) :
    List.Perm (sortStable le l) l := by
  suffices h : ∀ acc : List α,
      List.Perm (l.foldl (fun acc x => insertSorted le x acc) acc) (acc ++ l) by
    simpa using h []
  induction l with
  | nil => intro acc; simp
  | cons x xs ih =>
    intro acc
    rw [List.foldl_cons]
    refine ((ih (insertSorted le x acc)).trans ?_)
    refine (List.Perm.append_right xs (perm_insertSorted le x acc)).trans ?_
    exact List.perm_middle.symm

theorem pairwise_insertSorted (le : α → α → Bool)
    (htrans : ∀ a b c, le a b = true → le b c = true → le a c = true)
    (htot : ∀ a b, le a b = true ∨ le b a = true)
    (x : α) (l : List α) (h : l.Pairwise (fun a b => le a b = true)) :
    (insertSorted le x l).Pairwise (fun a b => le a b = true) := by
  induction l with
  | nil => simp [insertSorted]
  | cons y ys ih =>
    rw [List.pairwise_cons] at h
    obtain ⟨hy, hys⟩ := h
    rw [insertSorted]
    by_cases hle : le y x = true
    · rw [if_pos hle, List.pairwise_cons]
      refine ⟨?_, ih hys⟩
      intro z hz
      rcases List.mem_cons.mp ((perm_insertSorted le x ys).mem_iff.mp hz) with rfl | hz2
      · exact hle
      · exact hy z hz2
    · have hxy : le x y = true := by
        rcases htot x y with h1 | h1
        · exact h1
        · exact absurd h1 hle
      rw [if_neg hle, List.pairwise_cons]
      refine ⟨?_, List.pairwise_cons.mpr ⟨hy, hys⟩⟩
      intro z hz
      rcases List.mem_cons.mp hz with rfl | hz2
      · exact hxy
      · exact htrans x y z hxy (hy z hz2)

theorem pairwise_sortStable (le : α → α → Bool)
    (htrans : ∀ a b c, le a b = true → le b c = true → le a c = true)
    (htot : ∀ a b, le a b = true ∨ le b a = true) (l : List α) :
    (sortStable le l).Pairwise (fun a b => le a b = true) := by
  suffices h : ∀ acc : List α, acc.Pairwise (fun a b => le a b = true) →
      (l.foldl (fun acc x => insertSorted le x acc) acc).Pairwise
        (fun a b => le a b = true) by
    exact h [] (by simp)
  induction l with
  | nil => intro acc hacc; exact hacc
  | cons x xs ih =>
    intro acc hacc
    rw [List.foldl_cons]
    exact ih _ (pairwise_insertSorted le htrans htot x acc hacc)

/-! ### Reverse-map lemmas -/

theorem nodup_append_single (l : List String) (a : String) (h : l.Nodup)
    (ha : a ∉ l) : (l ++ [a]).Nodup := by
  rw [List.nodup_append]
  refine ⟨h, List.nodup_singleton a, ?_⟩
  intro x hx hxa
  rcases List.mem_singleton.mp hxa with rfl
  exact ha hx

theorem nodup_addRepo (acc : List String) (uri : String) (h : acc.Nodup) :
    (addRepo acc uri).Nodup := by
  rw [addRepo]
  by_cases hc : repoFromUri uri ≠ "" ∧ repoFromUri uri ∉ acc
  · rw [if_pos hc]
    exact nodup_append_single acc _ h hc.2
  · rw [if_neg hc]
    exact h

theorem nodup_foldl_addRepo (uris : List String) :
    ∀ acc : List String, acc.Nodup → (uris.foldl addRepo acc).Nodup := by
  induction uris with
  | nil => intro acc h; exact h
  | cons u us ih =>
    intro acc h
    rw [List.foldl_cons]
    exact ih _ (nodup_addRepo acc u h)

theorem nodup_collect (sps : List GroupSubproject) :
    ∀ acc : List String, acc.Nodup →
      (sps.foldl (fun acc sp => sp.owners.foldl addRepo acc) acc).Nodup := by
  induction sps with
  | nil => intro acc h; exact h
  | cons sp sps ih =>
    intro acc h
    rw [List.foldl_cons]
    exact ih _ (nodup_foldl_addRepo sp.owners acc h)

theorem repos_from_sig_nodup (s : SigDecl) : (repos_from_sig s).Nodup := by
  rw [repos_from_sig]
  exact (perm_sortStable strLeB _).symm.nodup
    (nodup_collect (s.subprojects.getD []) [] List.nodup_nil)

theorem lookup_foldl_append (nm : String) (rs : List String) :
    ∀ (m : List (String × List String)) (x : String), rs.Nodup →
      ((rs.foldl (fun m r => dinsert r ((m.lookup r).getD [] ++ [nm]) m) m).lookup x) =
        if x ∈ rs then some ((m.lookup x).getD [] ++ [nm]) else m.lookup x := by
  induction rs with
  | nil => intro m x _; simp
  | cons r rs ih =>
    intro m x hnd
    obtain ⟨hr, hnd'⟩ := List.nodup_cons.mp hnd
    rw [List.foldl_cons, ih _ x hnd']
    by_cases hx : x = r
    · subst hx
      rw [if_neg hr, if_pos (List.mem_cons_self x rs)]
      exact lookup_dinsert_self x _ m
    · by_cases hxs : x ∈ rs
      · rw [if_pos hxs, if_pos (List.mem_cons_of_mem r hxs)]
        rw [lookup_dinsert_ne r x _ m hx]
      · rw [if_neg hxs]
        have hnc : x ∉ r :: rs := by
          intro hc
          rcases List.mem_cons.mp hc with h | h
          · exact hx h
          · exact hxs h
        rw [if_neg hnc]
        exact lookup_dinsert_ne r x _ m hx

theorem rmAux_lookup (ss : List SigDecl) :
    ∀ (m : List (String × List String)) (r : String),
      (rmAux m ss).lookup r =
        if owningNames r ss = [] then m.lookup r
        else some ((m.lookup r).getD [] ++ owningNames r ss) := by
  induction ss with
  | nil => intro m r; simp [rmAux, owningNames]
  | cons s ss ih =>
    intro m r
    have hadd : (addSigRepos m s).lookup r =
        if r ∈ repos_from_sig s then some ((m.lookup r).getD [] ++ [s.name])
        else m.lookup r :=
      lookup_foldl_append s.name (repos_from_sig s) m r (repos_from_sig_nodup s)
    show (rmAux (addSigRepos m s) ss).lookup r = _
    rw [ih (addSigRepos m s) r]
    by_cases hr : r ∈ repos_from_sig s
    · rw [if_pos hr] at hadd
      simp only [owningNames, if_pos hr]
      by_cases ho : owningNames r ss = []
      · rw [if_pos ho, hadd, ho]
        simp
      · rw [if_neg ho, hadd]
        have hne : (SigDecl.name s :: owningNames r ss) ≠ [] := by simp
        rw [if_neg hne]
        simp
    · rw [if_neg hr] at hadd
      simp only [owningNames, if_neg hr]
      rw [hadd]

theorem nodup_keys_foldl_dinsert (nm : String) (rs : List String) :
    ∀ m : List (String × List String), (m.map Prod.fst).Nodup →
      (((rs.foldl (fun m r => dinsert r ((m.lookup r).getD [] ++ [nm]) m) m)).map
        Prod.fst).Nodup := by
  induction rs with
  | nil => intro m h; exact h
  | cons r rs ih =>
    intro m h
    rw [List.foldl_cons]
    exact ih _ (nodup_keys_dinsert r _ m h)

theorem nodup_keys_rmAux (ss : List SigDecl) :
    ∀ m : List (String × List String), (m.map Prod.fst).Nodup →
      ((rmAux m ss).map Prod.fst).Nodup := by
  induction ss with
  | nil => intro m h; exact h
  | cons s ss ih =>
    intro m h
    exact ih _ (nodup_keys_foldl_dinsert s.name (repos_from_sig s) m h)

theorem lookup_eq_of_mem_nodup (m : List (String × α)) (k : String) (v : α)
    (hnd : (m.map Prod.fst).Nodup) (h : (k, v) ∈ m) : m.lookup k = some v := by
  induction m with
  | nil => cases h
  | cons p m ih =>
    obtain ⟨k0, v0⟩ := p
    simp only [List.map_cons, List.nodup_cons] at hnd
    rcases List.mem_cons.mp h with heq | h2
    · cases heq
      simp [List.lookup]
    · by_cases hk : k = k0
      · subst hk
        exact absurd (List.mem_map_of_mem Prod.fst h2) hnd.1
      · have hb : (k == k0) = false := beq_eq_false_iff_ne.mpr hk
        simp only [List.lookup, hb]
        exact ih hnd.2 h2

theorem mem_of_lookup_eq_some (m : List (String × α)) (k : String) (v : α)
    (h : m.lookup k = some v) : (k, v) ∈ m := by
  induction m with
  | nil => cases h
  | cons p m ih =>
    obtain ⟨k0, v0⟩ := p
    by_cases hk : k = k0
    · subst hk
      simp only [List.lookup, beq_self_eq_true] at h
      rcases Option.some.inj h with rfl
      exact List.mem_cons_self _ _
    · have hb : (k == k0) = false := beq_eq_false_iff_ne.mpr hk
      simp only [List.lookup, hb] at h
      exact List.mem_cons_of_mem _ (ih h)

/-- C7 (amended).  The Multi-Owner Detector reports exactly those
repositories owned by more than one sig (each with its owning-sig name
list), and the report is ordered by non-increasing owner count.  Equal
counts keep the reverse map's insertion order — the stable sort does NOT
reorder ties by repository name. -/
theorem report_multi_owner_spec (sigs : List SigDecl) :
    (∀ r l, (r, l) ∈ print_repos_owned_by_multiple_sigs sigs ↔
       (l = owningNames r sigs ∧ 1 < l.length)) ∧
    (print_repos_owned_by_multiple_sigs sigs).Pairwise
      (fun a b => b.2.length ≤ a.2.length) := by
  constructor
  · intro r l
    rw [print_repos_owned_by_multiple_sigs, List.mem_filter]
    constructor
    · rintro ⟨hmem, hlen⟩
      have hmem2 : (r, l) ∈ repos_owned sigs :=
        (perm_sortStable _ _).mem_iff.mp hmem
      have hlook : (repos_owned sigs).lookup r = some l :=
        lookup_eq_of_mem_nodup _ r l (nodup_keys_rmAux sigs [] (by simp)) hmem2
      rw [repos_owned, rmAux_lookup sigs [] r] at hlook
      have hlen' : 1 < l.length := by
        simpa [Nat.blt_eq] using hlen
      by_cases ho : owningNames r sigs = []
      · rw [if_pos ho] at hlook
        simp [List.lookup] at hlook
      · rw [if_neg ho] at hlook
        simp only [List.lookup, Option.getD_none, List.nil_append,
          Option.some.injEq] at hlook
        exact ⟨hlook.symm, hlen'⟩
    · rintro ⟨rfl, hlen⟩
      have ho : owningNames r sigs ≠ [] := by
        intro h
        rw [h] at hlen
        simp at hlen
      have hlook : (repos_owned sigs).lookup r = some (owningNames r sigs) := by
        rw [repos_owned, rmAux_lookup sigs [] r, if_neg ho]
        simp [List.lookup]
      have hmem2 : (r, owningNames r sigs) ∈ repos_owned sigs :=
        mem_of_lookup_eq_some _ r _ hlook
      refine ⟨(perm_sortStable _ _).mem_iff.mpr hmem2, ?_⟩
      simpa [Nat.blt_eq] using hlen
  · have hp := pairwise_sortStable (fun a b => Nat.ble b.2.length a.2.length)
      (by
        intro a b c h1 h2
        rw [Nat.ble_eq] at h1 h2 ⊢
        exact Nat.le_trans h2 h1)
      (by
        intro a b
        rcases Nat.le_total b.2.length a.2.length with h | h
        · exact Or.inl (Nat.ble_eq.mpr h)
        · exact Or.inr (Nat.ble_eq.mpr h))
      (repos_owned sigs)
    rw [print_repos_owned_by_multiple_sigs]
    exact List.Pairwise.imp (fun h => Nat.ble_eq.mp h)
      (List.Pairwise.sublist (List.filter_sublist _) hp)

/-- C7 counterexample.  Repos `o/a` and `o/b` are both owned by exactly two
sigs, yet the report lists `o/b` first although `o/a < o/b`: ties are kept
in first-encounter order, not repository-name-ascending order, so the
ordering clause of the claim fails as stated. -/
theorem report_tie_order_cex :
    print_repos_owned_by_multiple_sigs
        [⟨"s1", some [⟨"spa", ["https://raw.githubusercontent.com/o/b/master/OWNERS"]⟩]⟩,
         ⟨"s2", some [⟨"spb", ["https://raw.githubusercontent.com/o/a/master/OWNERS",
                               "https://raw.githubusercontent.com/o/b/master/OWNERS"]⟩]⟩,
         ⟨"s3", some [⟨"spc", ["https://raw.githubusercontent.com/o/a/master/OWNERS"]⟩]⟩] =
      [("o/b", ["s1", "s2"]), ("o/a", ["s2", "s3"])] ∧
    strLt "o/a" "o/b" = true ∧
    (["s1", "s2"] : List String).length = (["s2", "s3"] : List String).length :=
  ⟨rfl, rfl, rfl⟩

end CommunityOwners
